import Mathlib

/-!
Verification of the stencil specialization engine (package stencil, the
purely-syntactic strategy: listPackages / replacements / replacer.preReplace /
makeStencilled / processDir / processStencil / Process).

The Go code is shallowly embedded:
* paths are strings; `filepath.Join a b` is modelled as `a ++ "/" ++ b`
  (inputs are assumed cleaned and absolute, as produced by `filepath.Abs`);
* the filesystem visible to the engine is a pure `FS` value: the set of
  existing directories (for `os.Stat`-based probes), per-directory listings
  (for `ioutil.ReadDir`), parsed consumer files (for
  `parser.ParseFile(ImportsOnly)`) and parsed stencil packages (for
  `parser.ParseDir`);
* Go maps are modelled as association lists.  A list order stands for the
  iteration order Go chooses when the code ranges over the map; Go leaves
  that order unspecified, so two `FS` values whose lists are permutations of
  each other describe the same filesystem observed by two different runs;
* the go/ast nodes the rewriter distinguishes (`GenDecl`, `TypeSpec`,
  `Ident`, `InterfaceType`) are embedded in a small `Expr`/`Spec`/`Decl`
  syntax; statement lists are flattened to the expressions they contain,
  which keeps every identifier position the rewriter can touch;
* `format.Node` and `imports.Process` are external AST services; emitted
  file contents are therefore modelled as the rewritten syntax tree itself.
-/

namespace Stencil

/-! ### String and path helpers -/

/-- Split a string at every slash character (models strings.Split(s, "/")). -/
def splitSlashAux : List Char → List Char → List String
  | [], acc => [String.mk acc.reverse]
  | c :: cs, acc =>
      if c = '/' then String.mk acc.reverse :: splitSlashAux cs []
      else splitSlashAux cs (c :: acc)

def splitSlash (s : String) : List String := splitSlashAux s.data []

/-- Join path segments with slashes (models strings.Join(parts, "/")). -/
def joinSlash : List String → String
  | [] => ""
  | [p] => p
  | p :: ps => p ++ "/" ++ joinSlash ps

/-- filepath.Join for two cleaned path components. -/
def joinPath (a b : String) : String := a ++ "/" ++ b

/-- filepath.Dir of a cleaned path. -/
def parentDir (s : String) : String := joinSlash (splitSlash s).dropLast

/-- filepath.Base of a cleaned path. -/
def baseName (s : String) : String := ((splitSlash s).getLast?).getD s

/-- strings.HasSuffix. -/
def strEndsWith (s suf : String) : Bool := suf.data.isSuffixOf s.data

/-- strings.HasPrefix. -/
def strStartsWith (s pre : String) : Bool := pre.data.isPrefixOf s.data

/-! ### The go/ast fragment the rewriter distinguishes -/

/-- Expressions/type expressions.  `interfaceType` carries its method list:
`replacer.preReplace` matches any `*ast.InterfaceType`, with or without
methods, so the method list must be part of the model. Positions are kept
because the replacement node reuses `t.Pos()`. -/
inductive Expr where
  | ident (name : String) (pos : Nat)
  | basicLit (value : String) (pos : Nat)
  | interfaceType (methods : List Expr) (pos : Nat)
  | mapType (key : Expr) (value : Expr) (pos : Nat)
  | arrayType (elt : Expr) (pos : Nat)
  | funcType (params : List Expr) (results : List Expr) (pos : Nat)

/-- Specifications inside a general declaration. -/
inductive Spec where
  | typeSpec (name : String) (namePos : Nat) (ty : Expr)
  | valueSpec (names : List String) (ty : Option Expr) (values : List Expr)
  | importSpec (path : String)

/-- Top-level declarations. -/
inductive Decl where
  | genDecl (specs : List Spec)
  | funcDecl (name : String) (recv : Option Expr) (params : List Expr)
      (results : List Expr) (body : List Expr)

/-- A parsed source file.  `imports` is the view produced by the
view from the imports-only parse of a consumer file; `decls` is a full parse of a
stencil file. The package-clause name is an identifier node in go/ast and
is visited by the rewrite traversal, so it is kept. -/
structure GoFile where
  pkgName : String
  imports : List String
  decls : List Decl

/-- Emitted file descriptor (`type file struct { data []byte; path string }`);
contents are modelled as the rewritten tree handed to the formatter. -/
structure EmittedFile where
  path : String
  data : GoFile

/-! ### The substitution map (`type replacer map[string]string`) -/

abbrev Replacer := List (String × String)

def lookupR : Replacer → String → Option String
  | [], _ => none
  | (k, v) :: r, n => if k = n then some v else lookupR r n

/-- Go map assignment `r[k] = v` (overwrites an existing entry). -/
def insertR : Replacer → String → String → Replacer
  | [], k, v => [(k, v)]
  | (k', v') :: r, k, v =>
      if k' = k then (k, v) :: r else (k', v') :: insertR r k v

def rKeys (r : Replacer) : List String := r.map (·.1)

def rValues (r : Replacer) : List String := r.map (·.2)

/-- The name an identifier carries after the identifier rule of
`replacer.preReplace` has run. -/
def renameId (r : Replacer) (n : String) : String := (lookupR r n).getD n

/-! ### The AST rewrite (`apply.Apply(f, r.preReplace, nil)`)

`preReplace` is a pre-order visitor; its effect is denotational here:
* an identifier whose name is a key is renamed to the value;
* an `InterfaceType` node is replaced by `ast.Ident{Name: r["interface"],
  NamePos: t.Pos()}` when `r` has the key `"interface"` and the parent node
  is not a `TypeSpec`; the replacement node is not visited again;
* a `GenDecl` whose first spec is a `TypeSpec` named by a key is deleted.

`underTypeSpec` is true exactly when the expression is the direct
right-hand side of a type specification (the `c.Parent()` check). -/

mutual

def rewriteExpr (r : Replacer) (underTypeSpec : Bool) : Expr → Expr
  | .ident n p => .ident (renameId r n) p
  | .basicLit v p => .basicLit v p
  | .interfaceType ms p =>
      match lookupR r "interface", underTypeSpec with
      | some rep, false => .ident rep p
      | _, _ => .interfaceType (rewriteExprList r ms) p
  | .mapType k v p => .mapType (rewriteExpr r false k) (rewriteExpr r false v) p
  | .arrayType e p => .arrayType (rewriteExpr r false e) p
  | .funcType ps rs p => .funcType (rewriteExprList r ps) (rewriteExprList r rs) p

def rewriteExprList (r : Replacer) : List Expr → List Expr
  | [] => []
  | e :: es => rewriteExpr r false e :: rewriteExprList r es

end

def rewriteSpec (r : Replacer) : Spec → Spec
  | .typeSpec n np ty => .typeSpec (renameId r n) np (rewriteExpr r true ty)
  | .valueSpec ns ty vs =>
      .valueSpec (ns.map (renameId r)) (ty.map (rewriteExpr r false))
        (rewriteExprList r vs)
  | .importSpec s => .importSpec s

/-- Returns `none` when the declaration is deleted (`c.Delete()`): the first
specification is a type specification whose declared name is a key. -/
def rewriteDecl (r : Replacer) : Decl → Option Decl
  | .genDecl specs =>
      match specs with
      | .typeSpec n _ _ :: _ =>
          if (lookupR r n).isSome then none
          else some (.genDecl (specs.map (rewriteSpec r)))
      | _ => some (.genDecl (specs.map (rewriteSpec r)))
  | .funcDecl n recv ps rs body =>
      some (.funcDecl (renameId r n) (recv.map (rewriteExpr r false))
        (rewriteExprList r ps) (rewriteExprList r rs) (rewriteExprList r body))

def rewriteFile (r : Replacer) (f : GoFile) : GoFile :=
  { pkgName := renameId r f.pkgName
    imports := f.imports
    decls := f.decls.filterMap (rewriteDecl r) }

/-! ### The filesystem visible to the engine -/

/-- A pure snapshot of what the engine can observe through the environment
oracle and the parser:
* `dirs` — directories for which `os.Stat` succeeds with `IsDir()`;
* `listing` — `ioutil.ReadDir` results: entry basenames per directory;
* `files` — `parser.ParseFile(…, ImportsOnly)` results per file path;
* `pkgs` — `parser.ParseDir` input per directory: basename and parsed tree
  of every source file.  The list order models the iteration order Go picks
  when the code ranges over the resulting `map[string]*ast.File`; Go leaves
  that order unspecified, so permuted lists describe identical filesystems. -/
structure FS where
  dirs : List String
  listing : List (String × List String)
  files : List (String × GoFile)
  pkgs : List (String × List (String × GoFile))

def lookupStr {α : Type} : List (String × α) → String → Option α
  | [], _ => none
  | (k, v) :: m, n => if k = n then some v else lookupStr m n

def dirIn (fs : FS) (d : String) : Bool := fs.dirs.contains d

/-! ### Path decoder (`packageExists`, `replacements`) -/

/-- First root under which the package path is an existing directory. -/
def packageExists (fs : FS) : List String → String → Option String
  | [], _ => none
  | root :: rest, pkg =>
      let dir := joinPath root pkg
      if dirIn fs dir then some dir else packageExists fs rest pkg

/-- The decode loop of `replacements`, on the reversed segment list so that
peeling the two trailing segments is structural.  For `rev = spec :: param
:: rest`, the original loop body executes `r[param] = spec; parts =
parts[:len-2]` provided `len(parts) > 2`, i.e. `rest` is nonempty. -/
def replLoop (fs : FS) (roots : List String) : List String → Replacer → Option (String × Replacer)
  | spec :: param :: rest₀ :: rest₁, r =>
      match packageExists fs roots (joinSlash (spec :: param :: rest₀ :: rest₁).reverse) with
      | some dir => some (dir, r)
      | none => replLoop fs roots (rest₀ :: rest₁) (insertR r param spec)
  | rev, r =>
      match packageExists fs roots (joinSlash rev.reverse) with
      | some dir => some (dir, r)
      | none => none

/-- `replacements(roots, pkg)`: `("", nil)` is modelled as `none`. -/
def replacements (fs : FS) (roots : List String) (pkg : String) : Option (String × Replacer) :=
  match replLoop fs roots (splitSlash pkg).reverse [] with
  | some (dir, r) => if r.isEmpty then none else some (dir, r)
  | none => none

/-- True when the decode loop ends with no remaining prefix resolving to an
existing package (it ran out of segments to peel): the "no match" outcome. -/
def decodeNoMatch (fs : FS) (roots : List String) : List String → Bool
  | spec :: param :: rest₀ :: rest₁ =>
      match packageExists fs roots (joinSlash (spec :: param :: rest₀ :: rest₁).reverse) with
      | some _ => false
      | none => decodeNoMatch fs roots (rest₀ :: rest₁)
  | rev =>
      match packageExists fs roots (joinSlash rev.reverse) with
      | some _ => false
      | none => true

def decodeNoMatchP (fs : FS) (roots : List String) (pkg : String) : Bool :=
  decodeNoMatch fs roots (splitSlash pkg).reverse

/-! ### Root oracle (`srcRoot`, the vendor loop of `processDir`) -/

/-- `srcRoot`: the first ambient source root that is a prefix of `dir`.
(The fallback that resolves an ancestor named "src" through `os.SameFile`
collapses to this under a filesystem without symbolic links.) -/
def srcRootF : List String → String → Option String
  | [], _ => none
  | src :: rest, dir =>
      if strStartsWith dir src then some src else srcRootF rest dir

/-- The vendor-selection loop of `processDir`, faithful to the source:

    vendor := filepath.Join(dir, "vendor")
    for d := dir; d != srcs; d = filepath.Dir(d) {
        v := filepath.Join(d, "vendor")
        st, err := os.Stat(d)
        if err == nil && st.IsDir() { vendor = v; break }
    }

Note the loop stats `d` itself, not `v`.  Fuel is the segment count of the
starting directory, which bounds the number of parent steps. -/
def vendorLoop (fs : FS) (srcs : String) : Nat → String → Option String
  | 0, _ => none
  | n + 1, d =>
      if d = srcs then none
      else if dirIn fs d then some (joinPath d "vendor")
      else vendorLoop fs srcs n (parentDir d)

def vendorFor (fs : FS) (srcs dir : String) : String :=
  (vendorLoop fs srcs (splitSlash dir).length dir).getD (joinPath dir "vendor")

/-- Modelled from the spec (§4.B `vendorFor`): walk upward from `dir`
toward the enclosing source root; return `d ++ "/vendor"` for the first
ancestor `d` that contains a subdirectory named `vendor`; if none, return
`dir ++ "/vendor"`.  Stated only for comparison with the code's
`vendorFor`. -/
def vendorSpecLoop (fs : FS) (srcs : String) : Nat → String → Option String
  | 0, _ => none
  | n + 1, d =>
      if d = srcs then none
      else if dirIn fs (joinPath d "vendor") then some (joinPath d "vendor")
      else vendorSpecLoop fs srcs n (parentDir d)

def vendorForSpec (fs : FS) (srcs dir : String) : String :=
  (vendorSpecLoop fs srcs (splitSlash dir).length dir).getD (joinPath dir "vendor")

/-! ### Path lister (`listPackages`) -/

abbrev DirsMap := List (String × List String)

/-- `dirs[dir] = append(dirs[dir], c)`. -/
def updAppend : DirsMap → String → String → DirsMap
  | [], k, v => [(k, [v])]
  | (k', vs) :: m, k, v =>
      if k' = k then (k', vs ++ [v]) :: m else (k', vs) :: updAppend m k v

/-- `dirs[c] = files` (replaces any existing entry). -/
def setEntry : DirsMap → String → List String → DirsMap
  | [], k, vs => [(k, vs)]
  | (k', vs') :: m, k, vs =>
      if k' = k then (k, vs) :: m else (k', vs') :: setEntry m k vs

def lookupEntry (m : DirsMap) (k : String) : List String :=
  (lookupStr m k).getD []

/-- The non-test source files of a directory listing, joined to the
directory (the enumeration branch of `listPackages`). -/
def goSources (c : String) (entries : List String) : List String :=
  (entries.filter fun n => strEndsWith n ".go" && !strEndsWith n "_test.go").map
    fun n => joinPath c n

/-- One iteration of the argument loop of `listPackages`.  `filepath.Abs`
is the identity here: arguments are assumed absolute and cleaned. -/
def listStep (fs : FS) (m : DirsMap) (arg : String) : Except String DirsMap :=
  if strEndsWith arg ".go" then .ok (updAppend m (parentDir arg) arg)
  else
    match lookupStr fs.listing arg with
    | none => .error ("readDir failed: " ++ arg)
    | some entries => .ok (setEntry m arg (goSources arg entries))

def listLoop (fs : FS) : List String → DirsMap → Except String DirsMap
  | [], m => .ok m
  | arg :: rest, m =>
      match listStep fs m arg with
      | .error e => .error e
      | .ok m' => listLoop fs rest m'

def listPackages (fs : FS) (paths : List String) : Except String DirsMap :=
  listLoop fs (if paths.isEmpty then ["."] else paths) []

/-! ### Emitter (`makeStencilled`) and engine (`processDir`, `processStencil`) -/

/-- `parser.ParseDir` with the `_test.go` filter of `makeStencilled`. -/
def parseDir (fs : FS) (dir : String) : Except String (List (String × GoFile)) :=
  match lookupStr fs.pkgs dir with
  | none => .error (dir ++ ": errors parsing")
  | some files => .ok (files.filter fun p => !strEndsWith p.1 "_test.go")

/-- The distinct package names among parsed files: `ParseDir` groups files
into one `*ast.Package` per package clause. -/
def pkgNamesOf (files : List (String × GoFile)) : List String :=
  (files.map fun p => p.2.pkgName).eraseDups

def makeStencilled (fs : FS) (stencil stencilled : String) (r : Replacer) :
    Except String (List EmittedFile) :=
  match parseDir fs stencil with
  | .error e => .error e
  | .ok files =>
      if (pkgNamesOf files).length ≠ 1 then
        .error (stencil ++ ": expected 1 package")
      else
        .ok (files.map fun p =>
          { path := joinPath stencilled (baseName p.1), data := rewriteFile r p.2 })

/-- The body of the import loop of `processDir`: decode one import; on "no
match" skip silently, otherwise emit the specialized package. -/
def processImport (fs : FS) (roots : List String) (vendor pkg : String) :
    Except String (List EmittedFile) :=
  match replacements fs roots pkg with
  | none => .ok []
  | some (stencil, r) => makeStencilled fs stencil (joinPath vendor pkg) r

def processImportList (fs : FS) (roots : List String) (vendor : String) :
    List String → Except String (List EmittedFile)
  | [] => .ok []
  | imp :: rest =>
      match processImport fs roots vendor imp with
      | .error e => .error e
      | .ok out =>
          match processImportList fs roots vendor rest with
          | .error e => .error e
          | .ok outs => .ok (out ++ outs)

def processDirFiles (fs : FS) (roots : List String) (vendor : String) :
    List String → Except String (List EmittedFile)
  | [] => .ok []
  | fl :: rest =>
      match lookupStr fs.files fl with
      | none => .error (fl ++ ": parse failed")
      | some f =>
          match processImportList fs roots vendor f.imports with
          | .error e => .error e
          | .ok out =>
              match processDirFiles fs roots vendor rest with
              | .error e => .error e
              | .ok outs => .ok (out ++ outs)

def processDir (fs : FS) (srcDirs : List String) (dir : String) (fls : List String) :
    Except String (List EmittedFile) :=
  match srcRootF srcDirs dir with
  | none => .error (dir ++ ": not in GOPATH")
  | some srcs =>
      let vendor := vendorFor fs srcs dir
      processDirFiles fs (srcDirs ++ [vendor]) vendor fls

def processDirList (fs : FS) (srcDirs : List String) :
    DirsMap → Except String (List EmittedFile)
  | [] => .ok []
  | (dir, fls) :: rest =>
      match processDir fs srcDirs dir fls with
      | .error e => .error e
      | .ok out =>
          match processDirList fs srcDirs rest with
          | .error e => .error e
          | .ok outs => .ok (out ++ outs)

def processStencil (fs : FS) (srcDirs : List String) (paths : List String) :
    Except String (List EmittedFile) :=
  match listPackages fs paths with
  | .error e => .error e
  | .ok dirs => processDirList fs srcDirs dirs

/-! ### `Process`: the only writer -/

/-- A filesystem mutation performed by `Process` after `processStencil`
returns. -/
inductive WriteOp where
  | mkdirAll (dir : String)
  | writeFile (path : String) (data : GoFile)

/-- The writes the body of `Process` performs for one emitted file. -/
def writesFor (f : EmittedFile) : List WriteOp :=
  [.mkdirAll (parentDir f.path), .writeFile f.path f.data]

/-- `Process(paths, format)` as a trace of filesystem writes plus the
returned error.  `processStencil` failing returns before the write loop, so
the trace is empty.  (`doImports`, the optional goimports pass over the
input paths themselves, is the external collaborator the spec scopes out.) -/
def ProcessTrace (fs : FS) (srcDirs : List String) (paths : List String) :
    List WriteOp × Option String :=
  match processStencil fs srcDirs paths with
  | .error e => ([], some e)
  | .ok files => (files.flatMap writesFor, none)

/-- The sequence of output paths of an engine run (for stating order
sensitivity). -/
def emittedPaths (res : Except String (List EmittedFile)) : List String :=
  match res with
  | .error _ => []
  | .ok files => files.map (·.path)

/-! ### Concrete fixtures

A two-file stencil package `st/pkg` under the source root `/go/src`,
which the consumer `/go/src/ex/use.go` pulls in through the stencil path
`st/pkg/T/int`.  `mkStencilFS` is parametrized by the order in which the
run observes the files of the parsed stencil package, i.e. by Go's
unspecified map iteration order. -/

def fileA : GoFile := { pkgName := "pkg", imports := [], decls := [] }

def fileB : GoFile :=
  { pkgName := "pkg", imports := [], decls := [.funcDecl "F" none [] [] []] }

def consumerFile : GoFile :=
  { pkgName := "ex", imports := ["st/pkg/T/int"], decls := [] }

def mkStencilFS (stencilFiles : List (String × GoFile)) : FS :=
  { dirs := ["/go/src", "/go/src/ex", "/go/src/st/pkg"]
    listing := []
    files := [("/go/src/ex/use.go", consumerFile)]
    pkgs := [("/go/src/st/pkg", stencilFiles)] }

def fsOrderAB : FS := mkStencilFS [("a.go", fileA), ("b.go", fileB)]

def fsOrderBA : FS := mkStencilFS [("b.go", fileB), ("a.go", fileA)]

/-- A root `/r` under which only the package prefix `a.com/p` exists. -/
def fsDup : FS :=
  { dirs := ["/r", "/r/a.com/p"], listing := [], files := [], pkgs := [] }

/-- A source root `/s` with consumer directory `/s/a/b`; the ancestor
`/s/a` contains a `vendor` subdirectory, the consumer directory does not. -/
def fsVendor : FS :=
  { dirs := ["/s", "/s/a", "/s/a/vendor", "/s/a/b"], listing := [], files := [], pkgs := [] }

/-- A directory `/d` whose listing has one regular and one test source. -/
def fsList : FS :=
  { dirs := [], listing := [("/d", ["b.go", "a_test.go"])], files := [], pkgs := [] }

def fsEmpty : FS := { dirs := [], listing := [], files := [], pkgs := [] }

/-! ## Decode-loop lemmas -/

theorem replLoop_found (fs : FS) (roots : List String) (rev : List String) (r : Replacer)
    (d : String) (h : packageExists fs roots (joinSlash rev.reverse) = some d) :
    replLoop fs roots rev r = some (d, r) := by
  match rev with
  | [] => simp only [replLoop]; rw [h]
  | [a] => simp only [replLoop]; rw [h]
  | [a, b] => simp only [replLoop]; rw [h]
  | a :: b :: c :: rest => simp only [replLoop]; rw [h]

theorem replLoop_step (fs : FS) (roots : List String) (spec param r₀ : String)
    (rest : List String) (r : Replacer)
    (h : packageExists fs roots (joinSlash (spec :: param :: r₀ :: rest).reverse) = none) :
    replLoop fs roots (spec :: param :: r₀ :: rest) r
      = replLoop fs roots (r₀ :: rest) (insertR r param spec) := by
  simp only [replLoop]
  rw [h]

/-! ## Claims C1–C4 -/

/-- C1: the sequence of emitted File descriptors is NOT stable across runs
with identical inputs, identical source tree and identical root-oracle
results.  `makeStencilled` ranges over the `map[string]*ast.File` of the
parsed package, and Go leaves map iteration order unspecified, so two runs
may observe the two stencil files in either order.  The two filesystems
below are identical in every observable respect — same directories, same
listings, same consumer files, and stencil file sets that are permutations
of one another (i.e. equal as maps) — yet the emitted sequences differ.
(The repository's own multi-file golden test expects a fixed filename
order, which the spec also mandates; the code does not sort.) -/
theorem processStencil_depends_on_map_iteration_order :
    [("a.go", fileA), ("b.go", fileB)].Perm [("b.go", fileB), ("a.go", fileA)]
    ∧ fsOrderAB.dirs = fsOrderBA.dirs
    ∧ fsOrderAB.listing = fsOrderBA.listing
    ∧ fsOrderAB.files = fsOrderBA.files
    ∧ emittedPaths (processStencil fsOrderAB ["/go/src"] ["/go/src/ex/use.go"])
        = ["/go/src/ex/vendor/st/pkg/T/int/a.go", "/go/src/ex/vendor/st/pkg/T/int/b.go"]
    ∧ emittedPaths (processStencil fsOrderBA ["/go/src"] ["/go/src/ex/use.go"])
        = ["/go/src/ex/vendor/st/pkg/T/int/b.go", "/go/src/ex/vendor/st/pkg/T/int/a.go"]
    ∧ emittedPaths (processStencil fsOrderAB ["/go/src"] ["/go/src/ex/use.go"])
        ≠ emittedPaths (processStencil fsOrderBA ["/go/src"] ["/go/src/ex/use.go"]) :=
  ⟨List.Perm.swap ("b.go", fileB) ("a.go", fileA) [],
   rfl, rfl, rfl, by decide, by decide, by decide⟩

/-- C2 counterexample: for the import path `a.com/p/P/x/P/y`, whose
trailing segments mention the param `P` twice, the decoder does NOT fail
with a "specialized twice" error (the function has no error result at
all): it succeeds, assigning a second value that overwrites the first, so
the final map carries `P ↦ x` from the leftmost pair instead of the
earlier-peeled `P ↦ y`. -/
theorem replacements_duplicate_param_no_error :
    replacements fsDup ["/r"] "a.com/p/P/x/P/y" = some ("/r/a.com/p", [("P", "x")]) := by
  decide

/-- C2 amended: when peeling meets the same param twice, the decode
succeeds and the later assignment (from the leftmost pair) overwrites the
earlier one; no error is reported. -/
theorem replacements_duplicate_param_overwrites (fs : FS) (roots : List String)
    (pkg d : String) (pre : List String) (p x y : String)
    (hsplit : splitSlash pkg = pre ++ [p, x, p, y])
    (hpre : pre ≠ [])
    (h1 : packageExists fs roots (joinSlash (pre ++ [p, x, p, y])) = none)
    (h2 : packageExists fs roots (joinSlash (pre ++ [p, x])) = none)
    (h3 : packageExists fs roots (joinSlash pre) = some d) :
    replacements fs roots pkg = some (d, [(p, x)]) := by
  obtain ⟨z, zs, hz⟩ : ∃ z zs, pre.reverse = z :: zs := by
    cases hq : pre.reverse with
    | nil =>
        exact absurd (by simpa using congrArg List.reverse hq) hpre
    | cons z zs => exact ⟨z, zs, rfl⟩
  have hrev : (splitSlash pkg).reverse = y :: p :: x :: p :: z :: zs := by
    rw [hsplit, ← hz]; simp
  have e1 : (y :: p :: x :: p :: z :: zs).reverse = pre ++ [p, x, p, y] := by
    rw [← hz]; simp
  have e2 : (x :: p :: z :: zs).reverse = pre ++ [p, x] := by
    rw [← hz]; simp
  have e3 : (z :: zs).reverse = pre := by
    rw [← hz]; simp
  have hloop : replLoop fs roots (splitSlash pkg).reverse [] = some (d, [(p, x)]) := by
    rw [hrev]
    rw [replLoop_step fs roots y p x (p :: z :: zs) [] (by rw [e1]; exact h1)]
    rw [show insertR [] p y = [(p, y)] from rfl]
    rw [replLoop_step fs roots x p z zs [(p, y)] (by rw [e2]; exact h2)]
    rw [show insertR [(p, y)] p x = [(p, x)] by simp [insertR]]
    exact replLoop_found fs roots (z :: zs) [(p, x)] d (by rw [e3]; exact h3)
  simp [replacements, hloop]

/-- C3: the vendor directory chosen by `processDir` is NOT the first
ancestor containing a `vendor` subdirectory.  The loop stats the ancestor
`d` itself instead of `d/vendor`; since the consumer directory exists, the
loop always breaks on its first iteration and yields `dir + "/vendor"`.
Here the ancestor `/s/a` contains a `vendor` subdirectory while `/s/a/b`
does not, so the spec's walk (`vendorForSpec`) picks `/s/a/vendor`, but the
code picks `/s/a/b/vendor`. -/
theorem vendorFor_ignores_ancestor_vendor :
    dirIn fsVendor "/s/a/vendor" = true
    ∧ dirIn fsVendor "/s/a/b/vendor" = false
    ∧ vendorForSpec fsVendor "/s" "/s/a/b" = "/s/a/vendor"
    ∧ vendorFor fsVendor "/s" "/s/a/b" = "/s/a/b/vendor"
    ∧ vendorFor fsVendor "/s" "/s/a/b" ≠ vendorForSpec fsVendor "/s" "/s/a/b" :=
  ⟨by decide, by decide, by decide, by decide, by decide⟩

/-- C4 counterexample: `replacer.preReplace` matches every
`*ast.InterfaceType`, not only the empty-interface literal: an interface
literal with a nonempty method list that is not the right-hand side of a
type specification is also replaced by the identifier `r["interface"]`. -/
theorem interface_rule_rewrites_nonempty_interface :
    ([Expr.funcType [] [] 9] ≠ ([] : List Expr))
    ∧ rewriteExpr [("interface", "int")] false (.interfaceType [.funcType [] [] 9] 7)
        = .ident "int" 7 :=
  ⟨List.cons_ne_nil _ _, rfl⟩

/-- C4 amended: when `r` carries the reserved key `interface`, the rewriter
replaces exactly the interface type literal nodes — empty or not — that are
not the right-hand side of a type specification, with an identifier named
`r["interface"]` at the original node's position; an interface literal that
is the right-hand side of a type specification survives as an interface
literal (its methods still rewritten), and identifier nodes are only ever
renamed by the identifier rule, never replaced by the interface rule. -/
theorem interface_rule_characterization :
    (∀ (r : Replacer) (v : String) (ms : List Expr) (p : Nat),
        lookupR r "interface" = some v →
        rewriteExpr r false (.interfaceType ms p) = .ident v p)
    ∧ (∀ (r : Replacer) (n : String) (np : Nat) (ms : List Expr) (p : Nat),
        rewriteSpec r (.typeSpec n np (.interfaceType ms p))
          = .typeSpec (renameId r n) np (.interfaceType (rewriteExprList r ms) p))
    ∧ (∀ (r : Replacer) (us : Bool) (n : String) (p : Nat),
        rewriteExpr r us (.ident n p) = .ident (renameId r n) p) := by
  refine ⟨?_, ?_, ?_⟩
  · intro r v ms p h
    simp [rewriteExpr, h]
  · intro r n np ms p
    cases h : lookupR r "interface" with
    | none => simp [rewriteSpec, rewriteExpr, h]
    | some rep => simp [rewriteSpec, rewriteExpr, h]
  · intro r us n p
    rfl

/-- Witness for the amended C4 statement at a concrete input. -/
theorem interface_rule_characterization_w :
    rewriteExpr [("interface", "int")] false (.interfaceType [] 3) = .ident "int" 3 :=
  interface_rule_characterization.1 [("interface", "int")] "int" [] 3 rfl

/-! ## Splitting and joining are mutually inverse -/

theorem splitSlashAux_ne_nil : ∀ (cs acc : List Char), splitSlashAux cs acc ≠ []
  | [], acc => by simp [splitSlashAux]
  | c :: cs, acc => by
      by_cases h : c = '/'
      · simp [splitSlashAux, h]
      · simpa [splitSlashAux, h] using splitSlashAux_ne_nil cs (c :: acc)

theorem joinSlash_cons (a : String) (rest : List String) (h : rest ≠ []) :
    joinSlash (a :: rest) = a ++ "/" ++ joinSlash rest := by
  cases rest with
  | nil => exact absurd rfl h
  | cons b bs => rfl

theorem string_mk_append (a b : List Char) :
    String.mk a ++ String.mk b = String.mk (a ++ b) := rfl

theorem joinSlash_splitSlashAux : ∀ (cs acc : List Char),
    joinSlash (splitSlashAux cs acc) = String.mk (acc.reverse ++ cs)
  | [], acc => by simp [splitSlashAux, joinSlash]
  | c :: cs, acc => by
      by_cases h : c = '/'
      · subst h
        rw [show splitSlashAux ('/' :: cs) acc = String.mk acc.reverse :: splitSlashAux cs []
          from by simp [splitSlashAux]]
        rw [joinSlash_cons _ _ (splitSlashAux_ne_nil cs [])]
        rw [joinSlash_splitSlashAux cs []]
        rw [show ("/" : String) = String.mk ['/'] by decide]
        rw [string_mk_append, string_mk_append]
        simp
      · rw [splitSlashAux, if_neg h]
        rw [joinSlash_splitSlashAux cs (c :: acc)]
        simp

theorem joinSlash_splitSlash (s : String) : joinSlash (splitSlash s) = s := by
  rw [splitSlash, joinSlash_splitSlashAux]
  cases s with
  | mk data => simp

/-! ## Claim C7: decode failure is a silent skip -/

theorem replLoop_none_of_noMatch (fs : FS) (roots : List String) :
    ∀ (rev : List String) (r : Replacer),
      decodeNoMatch fs roots rev = true → replLoop fs roots rev r = none
  | [], r, h => by
      cases hp : packageExists fs roots (joinSlash ([] : List String).reverse) with
      | some d =>
          simp only [decodeNoMatch, hp] at h
          exact Bool.noConfusion h
      | none => simp only [replLoop, hp]
  | [a], r, h => by
      cases hp : packageExists fs roots (joinSlash [a].reverse) with
      | some d =>
          simp only [decodeNoMatch, hp] at h
          exact Bool.noConfusion h
      | none => simp only [replLoop, hp]
  | [a, b], r, h => by
      cases hp : packageExists fs roots (joinSlash [a, b].reverse) with
      | some d =>
          simp only [decodeNoMatch, hp] at h
          exact Bool.noConfusion h
      | none => simp only [replLoop, hp]
  | a :: b :: c :: rest, r, h => by
      cases hp : packageExists fs roots (joinSlash (a :: b :: c :: rest).reverse) with
      | some d =>
          simp only [decodeNoMatch, hp] at h
          exact Bool.noConfusion h
      | none =>
          simp only [decodeNoMatch, hp] at h
          simp only [replLoop, hp]
          exact replLoop_none_of_noMatch fs roots (c :: rest) (insertR r b a) h

/-- C7: an import whose path already names an existing package under some
root (no pair peeled, substitution map empty), or whose decode runs out of
peelable segments without a match, contributes zero emitted files and zero
errors: `processImport` returns `ok []`. -/
theorem processImport_silent_skip (fs : FS) (roots : List String) (vendor pkg : String)
    (h : (∃ d, packageExists fs roots pkg = some d)
        ∨ decodeNoMatchP fs roots pkg = true) :
    processImport fs roots vendor pkg = Except.ok [] := by
  have hrep : replacements fs roots pkg = none := by
    cases h with
    | inl hex =>
        obtain ⟨d, hd⟩ := hex
        have hfound : replLoop fs roots (splitSlash pkg).reverse [] = some (d, []) := by
          apply replLoop_found
          rw [List.reverse_reverse, joinSlash_splitSlash]
          exact hd
        simp [replacements, hfound]
    | inr hnm =>
        unfold decodeNoMatchP at hnm
        have hnone := replLoop_none_of_noMatch fs roots (splitSlash pkg).reverse [] hnm
        simp [replacements, hnone]
  simp [processImport, hrep]

/-- Witness for C7 at a concrete input: `a.com/p` exists under `/r`. -/
theorem processImport_silent_skip_w :
    processImport fsDup ["/r"] "/v" "a.com/p" = Except.ok [] :=
  processImport_silent_skip fsDup ["/r"] "/v" "a.com/p"
    (Or.inl ⟨"/r/a.com/p", by decide⟩)

/-! ## Identifier occurrence and type-declaration predicates

These scan the emitted tree.  Comments never enter the model and string
literals are `basicLit` nodes, so both predicates range exactly over
positions "outside of comments and string literals". -/

mutual

def exprHasIdent (k : String) : Expr → Bool
  | .ident n _ => n == k
  | .basicLit _ _ => false
  | .interfaceType ms _ => exprListHasIdent k ms
  | .mapType a b _ => exprHasIdent k a || exprHasIdent k b
  | .arrayType e _ => exprHasIdent k e
  | .funcType ps rs _ => exprListHasIdent k ps || exprListHasIdent k rs

def exprListHasIdent (k : String) : List Expr → Bool
  | [] => false
  | e :: es => exprHasIdent k e || exprListHasIdent k es

end

def optExprHasIdent (k : String) : Option Expr → Bool
  | none => false
  | some e => exprHasIdent k e

def specHasIdent (k : String) : Spec → Bool
  | .typeSpec n _ ty => n == k || exprHasIdent k ty
  | .valueSpec ns ty vs =>
      ns.any (fun n => n == k) || optExprHasIdent k ty || exprListHasIdent k vs
  | .importSpec _ => false

def declHasIdent (k : String) : Decl → Bool
  | .genDecl specs => specs.any (specHasIdent k)
  | .funcDecl n recv ps rs body =>
      n == k || optExprHasIdent k recv || exprListHasIdent k ps
        || exprListHasIdent k rs || exprListHasIdent k body

def fileHasIdent (k : String) (f : GoFile) : Bool :=
  f.pkgName == k || f.decls.any (declHasIdent k)

def specDeclaresType (k : String) : Spec → Bool
  | .typeSpec n _ _ => n == k
  | _ => false

def declDeclaresType (k : String) : Decl → Bool
  | .genDecl specs => specs.any (specDeclaresType k)
  | _ => false

/-- A top-level type declaration named `k` occurs in the file. -/
def fileDeclaresType (k : String) (f : GoFile) : Bool :=
  f.decls.any (declDeclaresType k)

/-! ## Renaming lemmas -/

theorem lookupR_mem_values {r : Replacer} {n v : String} (h : lookupR r n = some v) :
    v ∈ rValues r := by
  induction r with
  | nil => simp [lookupR] at h
  | cons kv r ih =>
      obtain ⟨k, w⟩ := kv
      by_cases hk : k = n
      · subst hk
        simp [lookupR] at h
        simp [rValues, h]
      · rw [lookupR, if_neg hk] at h
        simp only [rValues, List.map_cons, List.mem_cons]
        exact Or.inr (ih h)

theorem lookupR_isSome_of_mem_keys {r : Replacer} {k : String} (h : k ∈ rKeys r) :
    (lookupR r k).isSome = true := by
  induction r with
  | nil => simp [rKeys] at h
  | cons kv r ih =>
      obtain ⟨k', w⟩ := kv
      by_cases hk : k' = k
      · simp [lookupR, hk]
      · simp only [rKeys, List.map_cons, List.mem_cons] at h
        rcases h with h | h
        · exact absurd h.symm hk
        · rw [lookupR, if_neg hk]
          exact ih h

/-- After the identifier rule runs, no identifier can carry a name that is
a key of `r` but not one of its values. -/
theorem renameId_ne {r : Replacer} {k : String} (hk : k ∈ rKeys r)
    (hv : k ∉ rValues r) (n : String) : renameId r n ≠ k := by
  unfold renameId
  cases h : lookupR r n with
  | some v =>
      intro he
      exact hv (he ▸ lookupR_mem_values h)
  | none =>
      intro he
      simp only [Option.getD_none] at he
      rw [he] at h
      have := lookupR_isSome_of_mem_keys hk
      rw [h] at this
      simp at this

theorem lookupR_value_ne {r : Replacer} {k rep : String} (hv : k ∉ rValues r)
    (h : lookupR r "interface" = some rep) : rep ≠ k := by
  intro he
  exact hv (he ▸ lookupR_mem_values h)

mutual

theorem exprHasIdent_rewrite (r : Replacer) (k : String) (hk : k ∈ rKeys r)
    (hv : k ∉ rValues r) :
    ∀ (us : Bool) (e : Expr), exprHasIdent k (rewriteExpr r us e) = false
  | _, .ident n p => by
      simp only [rewriteExpr, exprHasIdent, beq_eq_false_iff_ne, ne_eq]
      exact renameId_ne hk hv n
  | _, .basicLit v p => rfl
  | us, .interfaceType ms p => by
      cases h : lookupR r "interface" with
      | some rep =>
          cases us with
          | false =>
              simp only [rewriteExpr, h, exprHasIdent, beq_eq_false_iff_ne, ne_eq]
              exact lookupR_value_ne hv h
          | true =>
              simp only [rewriteExpr, h, exprHasIdent]
              exact exprListHasIdent_rewrite r k hk hv ms
      | none =>
          simp only [rewriteExpr, h, exprHasIdent]
          exact exprListHasIdent_rewrite r k hk hv ms
  | _, .mapType a b p => by
      simp only [rewriteExpr, exprHasIdent, Bool.or_eq_false_iff]
      exact ⟨exprHasIdent_rewrite r k hk hv false a, exprHasIdent_rewrite r k hk hv false b⟩
  | _, .arrayType e p => by
      simp only [rewriteExpr, exprHasIdent]
      exact exprHasIdent_rewrite r k hk hv false e
  | _, .funcType ps rs p => by
      simp only [rewriteExpr, exprHasIdent, Bool.or_eq_false_iff]
      exact ⟨exprListHasIdent_rewrite r k hk hv ps, exprListHasIdent_rewrite r k hk hv rs⟩

theorem exprListHasIdent_rewrite (r : Replacer) (k : String) (hk : k ∈ rKeys r)
    (hv : k ∉ rValues r) :
    ∀ (es : List Expr), exprListHasIdent k (rewriteExprList r es) = false
  | [] => rfl
  | e :: es => by
      simp only [rewriteExprList, exprListHasIdent, Bool.or_eq_false_iff]
      exact ⟨exprHasIdent_rewrite r k hk hv false e, exprListHasIdent_rewrite r k hk hv es⟩

end

theorem specHasIdent_rewrite (r : Replacer) (k : String) (hk : k ∈ rKeys r)
    (hv : k ∉ rValues r) (s : Spec) : specHasIdent k (rewriteSpec r s) = false := by
  cases s with
  | typeSpec n np ty =>
      simp only [rewriteSpec, specHasIdent, Bool.or_eq_false_iff, beq_eq_false_iff_ne, ne_eq]
      exact ⟨renameId_ne hk hv n, exprHasIdent_rewrite r k hk hv true ty⟩
  | valueSpec ns ty vs =>
      simp only [rewriteSpec, specHasIdent, Bool.or_eq_false_iff]
      refine ⟨⟨?_, ?_⟩, exprListHasIdent_rewrite r k hk hv vs⟩
      · simp only [List.any_map, List.any_eq_false, Function.comp, Bool.not_eq_true,
          beq_eq_false_iff_ne, ne_eq]
        intro n _
        exact renameId_ne hk hv n
      · cases ty with
        | none => rfl
        | some t =>
            simp only [Option.map_some, optExprHasIdent]
            exact exprHasIdent_rewrite r k hk hv false t
  | importSpec s => rfl

theorem declHasIdent_rewrite (r : Replacer) (k : String) (hk : k ∈ rKeys r)
    (hv : k ∉ rValues r) (d d' : Decl) (h : rewriteDecl r d = some d') :
    declHasIdent k d' = false := by
  cases d with
  | genDecl specs =>
      have hout : d' = .genDecl (specs.map (rewriteSpec r)) := by
        cases specs with
        | nil => simpa [rewriteDecl] using h.symm
        | cons s rest =>
            cases s with
            | typeSpec n np ty =>
                rw [rewriteDecl] at h
                by_cases hn : (lookupR r n).isSome
                · rw [if_pos hn] at h; cases h
                · rw [if_neg hn] at h
                  exact (Option.some_inj.mp h).symm
            | valueSpec ns ty vs => simpa [rewriteDecl] using h.symm
            | importSpec s => simpa [rewriteDecl] using h.symm
      subst hout
      simp only [declHasIdent, List.any_map, List.any_eq_false, Function.comp,
        Bool.not_eq_true]
      intro s _
      exact specHasIdent_rewrite r k hk hv s
  | funcDecl n recv ps rs body =>
      simp only [rewriteDecl, Option.some_inj] at h
      subst h
      simp only [declHasIdent, Bool.or_eq_false_iff, beq_eq_false_iff_ne, ne_eq]
      refine ⟨⟨⟨⟨renameId_ne hk hv n, ?_⟩,
        exprListHasIdent_rewrite r k hk hv ps⟩,
        exprListHasIdent_rewrite r k hk hv rs⟩,
        exprListHasIdent_rewrite r k hk hv body⟩
      cases recv with
      | none => rfl
      | some e =>
          simp only [Option.map_some, optExprHasIdent]
          exact exprHasIdent_rewrite r k hk hv false e

/-! ## Claims C5 and C6 -/

/-- C5 counterexample: with the substitution map `{Element ↦ Element}`
(constructible from the import path `…/Element/Element`) a grouped type
declaration whose first specification declares a different name keeps its
`Element` specification, and the identifier rule renames `Element` to
itself — so a top-level type declaration named by the key `Element`
survives in the emitted file. -/
theorem grouped_self_substitution_keeps_type_decl :
    ("Element" ∈ rKeys [("Element", "Element")])
    ∧ fileDeclaresType "Element"
        (rewriteFile [("Element", "Element")]
          { pkgName := "p", imports := [],
            decls := [.genDecl [.typeSpec "A" 1 (.ident "int" 2),
                                .typeSpec "Element" 3 (.ident "int" 4)]] }) = true :=
  ⟨by decide, by decide⟩

/-- C5 amended: for every key `k` of `r` that is not also among the values
of `r`, no top-level type declaration named `k` appears in the rewritten
file: the first-specification check deletes declarations that lead with
`k`, and the identifier rule renames every surviving `TypeSpec` name, which
can only produce `k` again if `k` is a value of `r`. -/
theorem rewriteFile_no_key_type_decl (r : Replacer) (f : GoFile) (k : String)
    (hk : k ∈ rKeys r) (hv : k ∉ rValues r) :
    fileDeclaresType k (rewriteFile r f) = false := by
  simp only [rewriteFile, fileDeclaresType, List.any_eq_false, Bool.not_eq_true]
  intro d' hd'
  obtain ⟨d, _, hmap⟩ := List.mem_filterMap.mp hd'
  cases d with
  | funcDecl n recv ps rs body =>
      simp only [rewriteDecl, Option.some_inj] at hmap
      subst hmap
      rfl
  | genDecl specs =>
      have hout : d' = .genDecl (specs.map (rewriteSpec r)) := by
        cases specs with
        | nil => simpa [rewriteDecl] using hmap.symm
        | cons s rest =>
            cases s with
            | typeSpec n np ty =>
                rw [rewriteDecl] at hmap
                by_cases hn : (lookupR r n).isSome
                · rw [if_pos hn] at hmap; cases hmap
                · rw [if_neg hn] at hmap
                  exact (Option.some_inj.mp hmap).symm
            | valueSpec ns ty vs => simpa [rewriteDecl] using hmap.symm
            | importSpec s => simpa [rewriteDecl] using hmap.symm
      subst hout
      simp only [declDeclaresType, List.any_map, List.any_eq_false, Function.comp,
        Bool.not_eq_true]
      intro s _
      cases s with
      | typeSpec n np ty =>
          simp only [rewriteSpec, specDeclaresType, beq_eq_false_iff_ne, ne_eq]
          exact renameId_ne hk hv n
      | valueSpec ns ty vs => rfl
      | importSpec s => rfl

/-- Witness for the amended C5 statement at a concrete input. -/
theorem rewriteFile_no_key_type_decl_w :
    fileDeclaresType "T"
      (rewriteFile [("T", "int")]
        { pkgName := "p", imports := [],
          decls := [.genDecl [.typeSpec "A" 1 (.ident "int" 2),
                              .typeSpec "T" 3 (.ident "int" 4)]] }) = false :=
  rewriteFile_no_key_type_decl [("T", "int")]
    { pkgName := "p", imports := [],
      decls := [.genDecl [.typeSpec "A" 1 (.ident "int" 2),
                          .typeSpec "T" 3 (.ident "int" 4)]] } "T"
    (by decide) (by decide)

/-- C6 counterexample: the rewrite is single-pass, so with the map
`{A ↦ B, B ↦ C}` an identifier `A` is renamed to `B` — which is itself a
key of the map — and remains in the emitted file. -/
theorem rewrite_single_pass_key_survives :
    ("B" ∈ rKeys [("A", "B"), ("B", "C")])
    ∧ fileHasIdent "B"
        (rewriteFile [("A", "B"), ("B", "C")]
          { pkgName := "p", imports := [],
            decls := [.funcDecl "g" none [] [] [.ident "A" 4]] }) = true :=
  ⟨by decide, by decide⟩

/-- C6 amended: for every key `k` of `r` that is not also among the values
of `r`, no identifier named `k` remains anywhere in the rewritten file
(outside comments and string literals, which the identifier predicate does
not range over): every identifier is either renamed through the map — which
cannot produce `k` — or introduced by the interface rule carrying a value
of the map. -/
theorem rewriteFile_no_key_ident (r : Replacer) (f : GoFile) (k : String)
    (hk : k ∈ rKeys r) (hv : k ∉ rValues r) :
    fileHasIdent k (rewriteFile r f) = false := by
  simp only [rewriteFile, fileHasIdent, Bool.or_eq_false_iff, beq_eq_false_iff_ne, ne_eq]
  refine ⟨renameId_ne hk hv f.pkgName, ?_⟩
  simp only [List.any_eq_false, Bool.not_eq_true]
  intro d' hd'
  obtain ⟨d, _, hmap⟩ := List.mem_filterMap.mp hd'
  exact declHasIdent_rewrite r k hk hv d d' hmap

/-- Witness for the amended C6 statement at a concrete input. -/
theorem rewriteFile_no_key_ident_w :
    fileHasIdent "A"
      (rewriteFile [("A", "B"), ("B", "C")]
        { pkgName := "p", imports := [],
          decls := [.funcDecl "g" none [] [] [.ident "A" 4]] }) = false :=
  rewriteFile_no_key_ident [("A", "B"), ("B", "C")]
    { pkgName := "p", imports := [],
      decls := [.funcDecl "g" none [] [] [.ident "A" 4]] } "A"
    (by decide) (by decide)

/-- Witness for the amended C2 statement at a concrete input. -/
theorem replacements_duplicate_param_overwrites_w :
    replacements fsDup ["/r"] "a.com/p/Q/u/Q/w" = some ("/r/a.com/p", [("Q", "u")]) :=
  replacements_duplicate_param_overwrites fsDup ["/r"] "a.com/p/Q/u/Q/w" "/r/a.com/p"
    ["a.com", "p"] "Q" "u" "w" (by decide) (by decide) (by decide) (by decide) (by decide)

/-! ## Claim C8: vendor containment and basename preservation -/

/-- The emitted descriptor's path is the target directory joined with the
basename of some non-test source file of the stencil directory. -/
def stencilOk (fs : FS) (stencil stencilled : String) (ef : EmittedFile) : Bool :=
  match lookupStr fs.pkgs stencil with
  | none => false
  | some sfiles => sfiles.any fun p =>
      !strEndsWith p.1 "_test.go" && (ef.path == joinPath stencilled (baseName p.1))

/-- The emitted descriptor's path is `vendor / importPath / basename` for
the stencil directory the import decodes to. -/
def importOk (fs : FS) (roots : List String) (vendor pkg : String) (ef : EmittedFile) : Bool :=
  match replacements fs roots pkg with
  | none => false
  | some (stencil, _) => stencilOk fs stencil (joinPath vendor pkg) ef

def fileOk (fs : FS) (roots : List String) (vendor : String) (f : GoFile)
    (ef : EmittedFile) : Bool :=
  f.imports.any fun imp => importOk fs roots vendor imp ef

/-- Some import written in some consumer file of the directory accounts for
the emitted descriptor's path. -/
def dirOk (fs : FS) (roots : List String) (vendor : String) (fls : List String)
    (ef : EmittedFile) : Bool :=
  fls.any fun fl =>
    match lookupStr fs.files fl with
    | none => false
    | some f => fileOk fs roots vendor f ef

theorem makeStencilled_paths (fs : FS) (stencil stencilled : String) (r : Replacer)
    (out : List EmittedFile) (h : makeStencilled fs stencil stencilled r = .ok out) :
    ∀ ef ∈ out, stencilOk fs stencil stencilled ef = true := by
  intro ef hef
  cases hpd : parseDir fs stencil with
  | error e =>
      simp only [makeStencilled, hpd] at h
      exact Except.noConfusion h
  | ok files =>
      simp only [makeStencilled, hpd] at h
      by_cases hn : (pkgNamesOf files).length ≠ 1
      · rw [if_pos hn] at h; exact Except.noConfusion h
      · rw [if_neg hn] at h
        simp only [Except.ok.injEq] at h
        subst h
        unfold parseDir at hpd
        cases hlk : lookupStr fs.pkgs stencil with
        | none => rw [hlk] at hpd; exact Except.noConfusion hpd
        | some sfiles =>
            rw [hlk] at hpd
            simp only [Except.ok.injEq] at hpd
            subst hpd
            obtain ⟨p, hpmem, rfl⟩ := List.mem_map.mp hef
            obtain ⟨hmem, hflt⟩ := List.mem_filter.mp hpmem
            unfold stencilOk
            rw [hlk]
            apply List.any_eq_true.mpr
            refine ⟨p, hmem, ?_⟩
            simp only [hflt, Bool.true_and]
            exact beq_self_eq_true _

theorem processImport_paths (fs : FS) (roots : List String) (vendor pkg : String)
    (out : List EmittedFile) (h : processImport fs roots vendor pkg = .ok out) :
    ∀ ef ∈ out, importOk fs roots vendor pkg ef = true := by
  unfold processImport at h
  cases hr : replacements fs roots pkg with
  | none =>
      rw [hr] at h
      simp only [Except.ok.injEq] at h
      subst h
      intro ef hef
      exact absurd hef (List.not_mem_nil ef)
  | some sr =>
      obtain ⟨stencil, r⟩ := sr
      rw [hr] at h
      intro ef hef
      unfold importOk
      rw [hr]
      exact makeStencilled_paths fs stencil (joinPath vendor pkg) r out h ef hef

theorem processImportList_paths (fs : FS) (roots : List String) (vendor : String) :
    ∀ (imps : List String) (out : List EmittedFile),
      processImportList fs roots vendor imps = .ok out →
      ∀ ef ∈ out, imps.any (fun imp => importOk fs roots vendor imp ef) = true
  | [], out, h => by
      simp only [processImportList, Except.ok.injEq] at h
      subst h
      intro ef hef
      exact absurd hef (List.not_mem_nil ef)
  | imp :: rest, out, h => by
      cases h1 : processImport fs roots vendor imp with
      | error e =>
          simp only [processImportList, h1] at h
          exact Except.noConfusion h
      | ok o1 =>
          cases h2 : processImportList fs roots vendor rest with
          | error e =>
              simp only [processImportList, h1, h2] at h
              exact Except.noConfusion h
          | ok o2 =>
              simp only [processImportList, h1, h2, Except.ok.injEq] at h
              subst h
              intro ef hef
              simp only [List.any_cons, Bool.or_eq_true]
              rcases List.mem_append.mp hef with hm | hm
              · exact Or.inl (processImport_paths fs roots vendor imp o1 h1 ef hm)
              · exact Or.inr (processImportList_paths fs roots vendor rest o2 h2 ef hm)

theorem processDirFiles_paths (fs : FS) (roots : List String) (vendor : String) :
    ∀ (fls : List String) (out : List EmittedFile),
      processDirFiles fs roots vendor fls = .ok out →
      ∀ ef ∈ out, dirOk fs roots vendor fls ef = true
  | [], out, h => by
      simp only [processDirFiles, Except.ok.injEq] at h
      subst h
      intro ef hef
      exact absurd hef (List.not_mem_nil ef)
  | fl :: rest, out, h => by
      cases hlk : lookupStr fs.files fl with
      | none =>
          simp only [processDirFiles, hlk] at h
          exact Except.noConfusion h
      | some f =>
          cases h1 : processImportList fs roots vendor f.imports with
          | error e =>
              simp only [processDirFiles, hlk, h1] at h
              exact Except.noConfusion h
          | ok o1 =>
              cases h2 : processDirFiles fs roots vendor rest with
              | error e =>
                  simp only [processDirFiles, hlk, h1, h2] at h
                  exact Except.noConfusion h
              | ok o2 =>
                  simp only [processDirFiles, hlk, h1, h2, Except.ok.injEq] at h
                  subst h
                  intro ef hef
                  simp only [dirOk, List.any_cons, Bool.or_eq_true, hlk]
                  rcases List.mem_append.mp hef with hm | hm
                  · exact Or.inl
                      (processImportList_paths fs roots vendor f.imports o1 h1 ef hm)
                  · have := processDirFiles_paths fs roots vendor rest o2 h2 ef hm
                    simp only [dirOk] at this
                    exact Or.inr this

/-- C8: every File descriptor emitted while processing a consumer directory
has path `vendorRoot / importPath / basename`, where `importPath` is a
path written verbatim among the imports of one of the directory's consumer
files and decoding to a stencil directory, and `basename` is that of a
non-test source file of that stencil directory (so basename preservation
holds as well).  `vendorRoot` is exactly the vendor directory `processDir`
computes for the consumer directory. -/
theorem processDir_vendor_containment (fs : FS) (srcDirs : List String) (dir : String)
    (fls : List String) (srcs : String) (out : List EmittedFile)
    (hsrc : srcRootF srcDirs dir = some srcs)
    (h : processDir fs srcDirs dir fls = .ok out) :
    out.all
      (dirOk fs (srcDirs ++ [vendorFor fs srcs dir]) (vendorFor fs srcs dir) fls)
      = true := by
  unfold processDir at h
  rw [hsrc] at h
  rw [List.all_eq_true]
  intro ef hef
  exact processDirFiles_paths fs _ _ fls out h ef hef

/-- Witness for C8 at a concrete input (the two-file stencil fixture). -/
theorem processDir_vendor_containment_w :
    ([⟨"/go/src/ex/vendor/st/pkg/T/int/a.go", fileA⟩,
      ⟨"/go/src/ex/vendor/st/pkg/T/int/b.go", fileB⟩] : List EmittedFile).all
      (dirOk fsOrderAB (["/go/src"] ++ [vendorFor fsOrderAB "/go/src" "/go/src/ex"])
        (vendorFor fsOrderAB "/go/src" "/go/src/ex") ["/go/src/ex/use.go"]) = true :=
  processDir_vendor_containment fsOrderAB ["/go/src"] "/go/src/ex"
    ["/go/src/ex/use.go"] "/go/src"
    [⟨"/go/src/ex/vendor/st/pkg/T/int/a.go", fileA⟩,
     ⟨"/go/src/ex/vendor/st/pkg/T/int/b.go", fileB⟩] rfl rfl

/-! ## Claim C9: failures happen before any write -/

/-- C9: if any engine step fails — listing, consumer parse, stencil parse,
package-count check, or any later step folded into `processStencil`'s error
result — `Process` performs no filesystem writes at all: the write trace is
empty and the error is returned.  Writes happen only when every import of
every consumer file was processed successfully. -/
theorem process_no_writes_on_error (fs : FS) (srcDirs paths : List String) (e : String)
    (h : processStencil fs srcDirs paths = .error e) :
    ProcessTrace fs srcDirs paths = ([], some e) := by
  simp [ProcessTrace, h]

/-- Witness for C9 at a concrete input: listing a nonexistent directory
fails, and the trace of writes is empty. -/
theorem process_no_writes_on_error_w :
    ProcessTrace fsEmpty ["/s"] ["/nodir"] = ([], some "readDir failed: /nodir") :=
  process_no_writes_on_error fsEmpty ["/s"] ["/nodir"] "readDir failed: /nodir" rfl

/-! ## Claim C10: explicitly named .go files bypass the test filter -/

/-- C10 counterexample: an argument that explicitly names a `_test.go` file
is grouped under its parent directory at its processing step, but a LATER
directory argument naming the same directory replaces the whole entry with
the directory's non-test enumeration (`dirs[c] = files`), dropping the
explicitly named file from the result. -/
theorem listPackages_later_dir_arg_drops_explicit_file :
    strEndsWith "/d/a_test.go" ".go" = true
    ∧ listPackages fsList ["/d/a_test.go", "/d"] = .ok [("/d", ["/d/b.go"])]
    ∧ "/d/a_test.go" ∉ lookupEntry [("/d", ["/d/b.go"])] "/d" :=
  ⟨by decide, rfl, by decide⟩

theorem self_mem_lookupEntry_updAppend : ∀ (m : DirsMap) (k v : String),
    v ∈ lookupEntry (updAppend m k v) k
  | [], k, v => by simp [updAppend, lookupEntry, lookupStr]
  | (k', vs) :: m, k, v => by
      by_cases hk : k' = k
      · subst hk
        simp [updAppend, lookupEntry, lookupStr]
      · simp only [updAppend, lookupEntry, lookupStr, if_neg hk]
        exact self_mem_lookupEntry_updAppend m k v

theorem mem_lookupEntry_updAppend : ∀ (m : DirsMap) (k k' v x : String),
    x ∈ lookupEntry m k → x ∈ lookupEntry (updAppend m k' v) k
  | [], k, k', v, x, h => by
      simp [lookupEntry, lookupStr] at h
  | (k₀, vs) :: m, k, k', v, x, h => by
      by_cases h0 : k₀ = k' <;> by_cases h1 : k₀ = k
      · subst h0; subst h1
        simp [lookupEntry, lookupStr] at h
        simp [updAppend, lookupEntry, lookupStr, h]
      · subst h0
        simp only [lookupEntry, lookupStr, if_neg h1] at h
        simp only [updAppend, if_pos rfl, lookupEntry, lookupStr, if_neg h1]
        exact h
      · subst h1
        simp only [lookupEntry, lookupStr, if_pos rfl, Option.getD_some] at h
        simp only [updAppend, if_neg h0, lookupEntry, lookupStr, if_pos rfl,
          Option.getD_some]
        exact h
      · simp only [lookupEntry, lookupStr, if_neg h1] at h
        simp only [updAppend, if_neg h0, lookupEntry, lookupStr, if_neg h1]
        exact mem_lookupEntry_updAppend m k k' v x h

theorem lookupEntry_setEntry_ne : ∀ (m : DirsMap) (k k' : String) (vs : List String),
    k' ≠ k → lookupEntry (setEntry m k' vs) k = lookupEntry m k
  | [], k, k', vs, h => by
      simp only [setEntry, lookupEntry, lookupStr, if_neg h]
  | (k₀, vs₀) :: m, k, k', vs, h => by
      by_cases h0 : k₀ = k'
      · subst h0
        have h0k : ¬k₀ = k := fun hc => h (hc ▸ rfl)
        simp only [setEntry, if_pos rfl, lookupEntry, lookupStr, if_neg h, if_neg h0k]
      · by_cases h1 : k₀ = k
        · simp only [setEntry, if_neg h0, lookupEntry, lookupStr, if_pos h1]
        · simp only [setEntry, if_neg h0, lookupEntry, lookupStr, if_neg h1]
          exact lookupEntry_setEntry_ne m k k' vs h

theorem listLoop_preserves_mem (fs : FS) (k x : String) :
    ∀ (args : List String) (m m' : DirsMap),
      (∀ q ∈ args, strEndsWith q ".go" = true ∨ q ≠ k) →
      x ∈ lookupEntry m k → listLoop fs args m = .ok m' → x ∈ lookupEntry m' k
  | [], m, m', _, hx, h => by
      simp only [listLoop, Except.ok.injEq] at h
      subst h
      exact hx
  | q :: rest, m, m', hargs, hx, h => by
      cases hs : listStep fs m q with
      | error e =>
          simp only [listLoop, hs] at h
          exact Except.noConfusion h
      | ok m₁ =>
          simp only [listLoop, hs] at h
          have hx₁ : x ∈ lookupEntry m₁ k := by
            unfold listStep at hs
            by_cases hgo : strEndsWith q ".go" = true
            · rw [if_pos hgo] at hs
              simp only [Except.ok.injEq] at hs
              subst hs
              exact mem_lookupEntry_updAppend m k (parentDir q) q x hx
            · rw [if_neg hgo] at hs
              cases hlk : lookupStr fs.listing q with
              | none => rw [hlk] at hs; exact Except.noConfusion hs
              | some entries =>
                  rw [hlk] at hs
                  simp only [Except.ok.injEq] at hs
                  subst hs
                  have hq : q ≠ k := by
                    rcases hargs q (List.mem_cons_self q rest) with hg | hne
                    · exact absurd hg hgo
                    · exact hne
                  rw [lookupEntry_setEntry_ne m k q (goSources q entries) hq]
                  exact hx
          exact listLoop_preserves_mem fs k x rest m₁ m'
            (fun q' hq' => hargs q' (List.mem_cons_of_mem q hq')) hx₁ h

theorem listLoop_append (fs : FS) :
    ∀ (l₁ l₂ : List String) (m m₂ : DirsMap),
      listLoop fs (l₁ ++ l₂) m = .ok m₂ →
      ∃ m₁, listLoop fs l₁ m = .ok m₁ ∧ listLoop fs l₂ m₁ = .ok m₂
  | [], l₂, m, m₂, h => ⟨m, rfl, h⟩
  | a :: l, l₂, m, m₂, h => by
      cases hs : listStep fs m a with
      | error e =>
          rw [List.cons_append] at h
          simp only [listLoop, hs] at h
          exact Except.noConfusion h
      | ok m₁ =>
          rw [List.cons_append] at h
          simp only [listLoop, hs] at h
          obtain ⟨mm, hmm, hmm₂⟩ := listLoop_append fs l l₂ m₁ m₂ h
          exact ⟨mm, by simp only [listLoop, hs]; exact hmm, hmm₂⟩

/-- C10 amended: every argument that explicitly names a `.go` file — even a
`_test.go` file, which the directory-enumeration filter would exclude — is
grouped under its parent directory in the Path Lister's result, PROVIDED no
later argument names that same parent directory as a directory argument
(such an argument resets the directory's entry to its non-test
enumeration). -/
theorem listPackages_explicit_go_file (fs : FS) (pre post : List String) (arg : String)
    (m : DirsMap)
    (hgo : strEndsWith arg ".go" = true)
    (hpost : ∀ q ∈ post, strEndsWith q ".go" = true ∨ q ≠ parentDir arg)
    (h : listPackages fs (pre ++ arg :: post) = .ok m) :
    arg ∈ lookupEntry m (parentDir arg) := by
  unfold listPackages at h
  rw [if_neg (by simp)] at h
  obtain ⟨m₁, h₁, h₂⟩ := listLoop_append fs pre (arg :: post) [] m h
  have hstep : listStep fs m₁ arg = .ok (updAppend m₁ (parentDir arg) arg) := by
    unfold listStep
    rw [if_pos hgo]
  simp only [listLoop, hstep] at h₂
  exact listLoop_preserves_mem fs (parentDir arg) arg post
    (updAppend m₁ (parentDir arg) arg) m hpost
    (self_mem_lookupEntry_updAppend m₁ (parentDir arg) arg) h₂

/-- Witness for the amended C10 statement at a concrete input: a single
explicit `_test.go` argument with no later directory argument. -/
theorem listPackages_explicit_go_file_w :
    "/d/a_test.go" ∈ lookupEntry [("/d", ["/d/a_test.go"])] (parentDir "/d/a_test.go") :=
  listPackages_explicit_go_file fsList [] [] "/d/a_test.go"
    [("/d", ["/d/a_test.go"])] (by decide) (by intro q hq; exact absurd hq (List.not_mem_nil q))
    rfl

end Stencil
